import Mathlib

/-
Verification of the rotating log writer (lumberjack).

The repository's test suite and option/constructor layer are present in the
sources; the rotation core, naming codec, retention scanner, maintenance
engine and buffering layer are modelled from the specification (spec.md),
with every behaviour that the in-repo tests pin down reproduced exactly
(file names, error messages, the chunked buffer flush of TestBufferSize).

Conventions of the shallow embedding:
* file names and string data are `List Char`;
* byte sequences are `List Nat`;
* timestamps are natural numbers counting nanoseconds; the backup-name
  timestamp format is abstracted to the decimal millisecond count (the
  real code uses a fixed calendar format with millisecond resolution —
  what matters for the properties is that the format is an injective,
  strictly parsed rendering of the millisecond-truncated time);
* the file system is a single flat directory: a list of named entries;
* the asynchronous maintenance goroutine is modelled by an explicit
  `millPass` function, "a completed maintenance pass".
-/

namespace Lumberjack

/-- Boolean test that `p` is a leading segment of `s` (char lists). -/
def strPref : List Char → List Char → Bool
  | [], _ => true
  | _ :: _, [] => false
  | a :: as, b :: bs => if a = b then strPref as bs else false

/-- Boolean test that `e` is a trailing segment of `s` (char lists). -/
def strSuff (e s : List Char) : Bool :=
  strPref e.reverse s.reverse

/-- The decimal digit character for `d`. -/
def digitChar (d : Nat) : Char :=
  Char.ofNat (48 + d)

/-- Decode a decimal digit character; fails on anything else. -/
def charDigit? (c : Char) : Option Nat :=
  if 48 ≤ c.toNat ∧ c.toNat ≤ 57 then some (c.toNat - 48) else none

/-- Decimal rendering worker, structurally recursive on a fuel argument so
that it evaluates by plain kernel reduction; the fuel is always at least
the digit count when called through `fmtNat`. -/
def fmtNatFuel : Nat → Nat → List Char
  | 0, n => [digitChar n]
  | fuel + 1, n =>
    if n < 10 then [digitChar n] else fmtNatFuel fuel (n / 10) ++ [digitChar (n % 10)]

/-- Render a natural number in decimal, most significant digit first. -/
def fmtNat (n : Nat) : List Char := fmtNatFuel (n + 1) n

/-- Accumulating strict decimal parser: fails at the first non-digit. -/
def parseNatFold : List Char → Nat → Option Nat
  | [], acc => some acc
  | c :: rest, acc =>
    match charDigit? c with
    | some d => parseNatFold rest (acc * 10 + d)
    | none => none

/-- Strict decimal parser: requires a non-empty all-digit string. -/
def parseNat? (s : List Char) : Option Nat :=
  if s.isEmpty then none else parseNatFold s 0

/-- Nanoseconds per millisecond (the resolution of the timestamp format). -/
def nsPerMs : Nat := 1000000

/-- Nanoseconds per day (used by the age-based retention limit). -/
def nsPerDay : Nat := 86400000000000

/-- Modelled from the spec: the extension of a file name, from its last
extension separator to the end (empty when there is no separator), as used
by the naming codec's prefix/extension split. -/
def extOf : List Char → List Char
  | [] => []
  | c :: rest =>
    if c = '.' ∧ '.' ∉ rest then c :: rest else extOf rest

/-- Modelled from the spec: split the base file name at its last extension
separator; the returned prefix already carries the joining dash, the
returned extension carries the dot. The concrete splitting function is in
the repository part that is absent from the sources. -/
def prefixAndExt (base : List Char) : List Char × List Char :=
  let e := extOf base
  (base.take (base.length - e.length) ++ ['-'], e)

/-- Modelled from the spec: encode — derive the backup file name from the
base name and a timestamp: `<prefix>-<formatted millisecond timestamp><ext>`. -/
def backupName (base : List Char) (t : Nat) : List Char :=
  let pe := prefixAndExt base
  pe.1 ++ fmtNat (t / nsPerMs) ++ pe.2

/-- Modelled from the spec: decode — the strict inverse of the naming
codec. The name must start with the prefix, end with the extension, and the
middle segment must parse exactly against the timestamp format; any
deviation fails (never a silent default). -/
def timeFromName (name p e : List Char) : Option Nat :=
  if strPref p name then
    if strSuff e name then
      match parseNat? ((name.drop p.length).take (name.length - p.length - e.length)) with
      | some ms => some (ms * nsPerMs)
      | none => none
    else none
  else none

/-- The fixed suffix carried by compressed retired files. -/
def compressSuffix : List Char := ".gz".data

end Lumberjack


namespace Lumberjack

/- ### The directory model and the retention scanner -/

/-- An entry of the single directory holding the log files: a name, the
byte content, and whether the entry is a directory. -/
structure File where
  name : List Char
  content : List Nat
  isDir : Bool
deriving DecidableEq

/-- A directory state: the list of its entries. -/
abbrev FS : Type := List File

/-- Find the entry with the given name (the open/stat primitive). -/
def FS.lookup (fs : FS) (n : List Char) : Option File :=
  List.find? (fun f => decide (f.name = n)) fs

/-- Append bytes to the (non-directory) entry with the given name; the
model of writing through the open handle of the active file. -/
def FS.append (fs : FS) (n : List Char) (b : List Nat) : FS :=
  List.map (fun f => if f.name = n ∧ f.isDir = false then
    { f with content := f.content ++ b } else f) fs

/-- Modelled from the spec: the backup file descriptor produced by
scanning — decoded timestamp, file name, and whether the name carries the
compressed suffix. -/
structure LogInfo where
  timestamp : Nat
  name : List Char
  compressed : Bool
deriving DecidableEq

/-- Newest-first ordering on backup descriptors. -/
def tsGe (a b : LogInfo) : Prop := b.timestamp ≤ a.timestamp

instance : DecidableRel tsGe := fun a b => Nat.decLe b.timestamp a.timestamp

instance : IsTotal LogInfo tsGe := ⟨fun a b => Nat.le_total b.timestamp a.timestamp⟩

instance : IsTrans LogInfo tsGe :=
  ⟨fun _ _ _ h1 h2 => Nat.le_trans h2 h1⟩

/-- Modelled from the spec: decode one directory entry during the retention
scan — skip directories, skip the active base file, try the codec's decode
on the plain name and then on the name with the compressed suffix
stripped, and fail otherwise. -/
def decodeEntry (base : List Char) (f : File) : Option LogInfo :=
  if f.isDir = true then none
  else if f.name = base then none
  else
    let pe := prefixAndExt base
    match timeFromName f.name pe.1 pe.2 with
    | some t => some ⟨t, f.name, false⟩
    | none =>
      if strSuff compressSuffix f.name then
        match timeFromName (f.name.take (f.name.length - compressSuffix.length)) pe.1 pe.2 with
        | some t => some ⟨t, f.name, true⟩
        | none => none
      else none

/-- Modelled from the spec: the retention scan — list the directory, decode
each entry, discard failures, and sort the descriptors newest first. -/
def oldLogFiles (fs : FS) (base : List Char) : List LogInfo :=
  List.insertionSort tsGe (List.filterMap (decodeEntry base) fs)

/- ### The maintenance engine -/

/-- Modelled from the spec: the distinct backup timestamps of a scan, in
scan (newest-first) order; a compressed/uncompressed pair sharing one
timestamp contributes a single element. -/
def allTimestamps (files : List LogInfo) : List Nat :=
  (files.map LogInfo.timestamp).dedup

/-- Modelled from the spec: the timestamps retained by count-based pruning
— the `maxBackups` newest distinct timestamps. -/
def keepByCount (maxBackups : Nat) (files : List LogInfo) : List Nat :=
  (allTimestamps files).take maxBackups

/-- Modelled from the spec: the age cutoff — `now` minus `maxDays` days. -/
def cutoffNs (maxDays now : Nat) : Nat := now - maxDays * nsPerDay

/-- Configuration of a writer, fixed at construction (the applied options
of the in-source constructor `New`). -/
structure Config where
  base : List Char
  maxBytes : Nat
  maxBackups : Nat
  maxDays : Nat
  compress : Bool
  localTime : Bool
  rewrite : Bool
  bufSize : Nat
deriving DecidableEq

/-- Modelled from the spec: a backup descriptor is selected for removal
when it is over the count limit OR over the age limit (union of
violations); a disabled (zero) limit never selects anything. -/
def millRemove (cfg : Config) (now : Nat) (files : List LogInfo) (i : LogInfo) : Bool :=
  decide ((cfg.maxBackups ≠ 0 ∧ i.timestamp ∉ keepByCount cfg.maxBackups files) ∨
    (cfg.maxDays ≠ 0 ∧ i.timestamp < cutoffNs cfg.maxDays now))

/-- Modelled from the spec: the gzip collaborator, abstracted to an
injective framed encoding (the two gzip magic bytes in front) with an
exact decoder. -/
def gzipEncode (b : List Nat) : List Nat := 31 :: 139 :: b

/-- Exact decoder of the abstracted gzip framing. -/
def gzipDecode : List Nat → Option (List Nat)
  | 31 :: 139 :: rest => some rest
  | _ => none

/-- Modelled from the spec: the compression step of a maintenance pass —
find the newest backup descriptor that does not carry the compressed
suffix and has no compressed sibling, stream its bytes into
`<name><compressSuffix>`, then delete the uncompressed source. -/
def compressStep (fs : FS) (base : List Char) : FS :=
  match List.find? (fun i => !i.compressed && (FS.lookup fs (i.name ++ compressSuffix)).isNone)
      (oldLogFiles fs base) with
  | none => fs
  | some i =>
    match FS.lookup fs i.name with
    | none => fs
    | some f =>
      ⟨i.name ++ compressSuffix, gzipEncode f.content, false⟩ ::
        List.filter (fun g => decide (g.name ≠ i.name)) fs

/-- Modelled from the spec: one completed maintenance pass — optional
compression, then deletion of every backup selected by the retention
limits; files that are not backups are untouched. -/
def millPass (cfg : Config) (now : Nat) (fs : FS) : FS :=
  let fs1 := if cfg.compress = true then compressStep fs cfg.base else fs
  let files := oldLogFiles fs1 cfg.base
  let removeNames := (files.filter (millRemove cfg now files)).map LogInfo.name
  List.filter (fun f => decide (f.name ∉ removeNames)) fs1

end Lumberjack

namespace Lumberjack

/- ### The rotation core and the buffering layer -/

/-- The failures a foreground call can surface. -/
inductive WError where
  | closed
  | tooLong (len max : Nat)
  | openFail
deriving DecidableEq

/-- The error strings of the foreground failures, as the tests assert
them: "file close" and "write length %d exceeds maximum file size %d". -/
def errMsg : WError → List Char
  | .closed => "file close".data
  | .tooLong len max =>
    "write length ".data ++ fmtNat len ++ " exceeds maximum file size ".data ++ fmtNat max
  | .openFail => "open failed".data

/-- Mutable state of a writer instance. -/
structure Logger where
  cfg : Config
  size : Nat
  isOpen : Bool
  closed : Bool
  buf : List Nat
  millPending : Bool
deriving DecidableEq

/-- A writer together with the directory it writes into. -/
structure World where
  logger : Logger
  fs : FS
deriving DecidableEq

/-- Modelled from the spec: "open existing or create new" — reuse a
pre-existing file at the base path (its length becomes `size`) or create a
fresh empty one; fails when a directory sits at the path. The concrete
`openExistingOrNew` called by the in-source constructor is in the
repository part absent from the sources. -/
def openEON (cfg : Config) (fs : FS) : Option (Nat × FS) :=
  match FS.lookup fs cfg.base with
  | some f => if f.isDir = true then none else some (f.content.length, fs)
  | none => some (0, ⟨cfg.base, [], false⟩ :: fs)

/-- The in-source constructor `New`: apply the options, eagerly open or
create the target file, and return the writer (the background maintenance
goroutine it starts is modelled by explicit `millPass` invocations). -/
def New (cfg : Config) (fs : FS) : Except WError (Logger × FS) :=
  match openEON cfg fs with
  | none => .error .openFail
  | some (sz, fs') => .ok (⟨cfg, sz, true, false, [], false⟩, fs')

/-- Modelled from the spec: the rotation step — in rewrite mode truncate
the active file in place (no backup); otherwise rename the active file to
the timestamped backup name, open a fresh active file, reset `size`, and
signal the maintenance engine. -/
def rotateStep (now : Nat) (l : Logger) (fs : FS) : Logger × FS :=
  if l.cfg.rewrite = true then
    ({ l with size := 0 },
      List.map (fun f => if f.name = l.cfg.base ∧ f.isDir = false then
        { f with content := [] } else f) fs)
  else
    let bn := backupName l.cfg.base now
    ({ l with size := 0, isOpen := true, millPending := true },
      ⟨l.cfg.base, [], false⟩ ::
        List.map (fun f => if f.name = l.cfg.base then { f with name := bn } else f)
          (List.filter (fun f => decide (f.name ≠ bn)) fs))

/-- Modelled from the spec: the rotation core's write path after the
closed and oversize checks — lazily open, rotate first when the write
would push `size` past `maxBytes`, then append and account the size. -/
def rcWrite (now : Nat) (b : List Nat) (w : World) : (Nat × Option WError) × World :=
  match (if w.logger.isOpen = true then some (w.logger, w.fs)
    else (openEON w.logger.cfg w.fs).map
      (fun p => ({ w.logger with isOpen := true, size := p.1 }, p.2))) with
  | none => ((0, some .openFail), w)
  | some (l1, fs1) =>
    let p := if l1.cfg.maxBytes ≠ 0 ∧ l1.cfg.maxBytes < l1.size + b.length then
        rotateStep now l1 fs1
      else (l1, fs1)
    ((b.length, none),
      ⟨{ p.1 with size := p.1.size + b.length }, FS.append p.2 p.1.cfg.base b⟩)

/-- Modelled from the spec and pinned by TestBufferSize: one buffered write
over a buffer of capacity `K`. Returns the bytes flushed through to the
file and the new buffer content: a write that fits in the remaining space
is only buffered; otherwise the buffer is filled and flushed as a full
chunk and a remaining overlong tail is written straight through, the rest
staying buffered. -/
def bufioWrite (K : Nat) (buf p : List Nat) : List Nat × List Nat :=
  if buf.length + p.length ≤ K then ([], buf ++ p)
  else if buf.length = 0 then (p, [])
  else if (p.drop (K - buf.length)).length ≤ K then
    (buf ++ p.take (K - buf.length), p.drop (K - buf.length))
  else ((buf ++ p.take (K - buf.length)) ++ p.drop (K - buf.length), [])

/-- Modelled from the spec: the buffering layer's write — accumulate in
the buffer, pushing flushed chunks through to the active file. -/
def bufferedWrite (b : List Nat) (w : World) : (Nat × Option WError) × World :=
  let l := w.logger
  let r := bufioWrite l.cfg.bufSize l.buf b
  ((b.length, none),
    ⟨{ l with buf := r.2, size := l.size + r.1.length },
      FS.append w.fs l.cfg.base r.1⟩)

/-- Modelled from the spec: the user-facing write — closed check, then the
oversize check against `maxBytes` alone, then the unbuffered rotation-core
path (a buffer threshold of at most 1 degrades to pass-through) or the
buffered path. -/
def writeOp (now : Nat) (b : List Nat) (w : World) : (Nat × Option WError) × World :=
  if w.logger.closed = true then ((0, some .closed), w)
  else if w.logger.cfg.maxBytes ≠ 0 ∧ w.logger.cfg.maxBytes < b.length then
    ((0, some (.tooLong b.length w.logger.cfg.maxBytes)), w)
  else if w.logger.cfg.bufSize ≤ 1 then rcWrite now b w
  else bufferedWrite b w

/-- Modelled from the spec: flush — force buffered bytes out to the active
file; a no-op when nothing is buffered. -/
def flushW (w : World) : World :=
  let l := w.logger
  if l.buf.isEmpty then w
  else
    ⟨{ l with buf := [], size := l.size + l.buf.length },
      FS.append w.fs l.cfg.base l.buf⟩

/-- Modelled from the spec: close — flush, close the active handle, and
mark the writer permanently closed. -/
def closeW (w : World) : World :=
  let w1 := flushW w
  ⟨{ w1.logger with isOpen := false, closed := true }, w1.fs⟩

/-- Modelled from the spec: the explicit, caller-invocable rotation. -/
def rotateOp (now : Nat) (w : World) : Option WError × World :=
  if w.logger.closed = true then (some .closed, w)
  else
    let w1 := flushW w
    let p := rotateStep now w1.logger w1.fs
    (none, ⟨p.1, p.2⟩)

/-- The foreground operations a caller can perform on a writer. -/
inductive Op where
  | write (now : Nat) (b : List Nat)
  | flush
  | rot (now : Nat)
  | close

/-- Apply one foreground operation to the world. -/
def applyOp (w : World) : Op → World
  | .write now b => (writeOp now b w).2
  | .flush => flushW w
  | .rot now => (rotateOp now w).2
  | .close => closeW w

/-- Run a sequence of foreground operations. -/
def runOps (w : World) (ops : List Op) : World :=
  ops.foldl applyOp w

/-- Run a sequence of plain writes, all at the same (controlled) time. -/
def runWrites (now : Nat) (bs : List (List Nat)) (w : World) : World :=
  bs.foldl (fun w0 b => (writeOp now b w0).2) w

/-- The content of the file at the writer's configured path. -/
def visible (w : World) : Option (List Nat) :=
  (FS.lookup w.fs w.logger.cfg.base).map File.content

/- ### Sample names, configurations and worlds used to instantiate the theorems -/

/-- The base log name used throughout the test suite. -/
def fooLog : List Char := "foobar.log".data

/-- A name that decodes as no backup of `fooLog`. -/
def booLog : List Char := "boo.log".data

/-- A writer configuration with no limits at all (defaults). -/
def cfgPlain : Config := ⟨fooLog, 0, 0, 0, false, false, false, 1⟩

/-- A configuration with a 10-byte size cap, unbuffered. -/
def cfg10 : Config := ⟨fooLog, 10, 0, 0, false, false, false, 1⟩

/-- An open writer over `cfg10` whose active file holds four bytes. -/
def w10 : World := ⟨⟨cfg10, 4, true, false, [], false⟩, [⟨fooLog, [1, 2, 3, 4], false⟩]⟩

/-- A directory with a directory entry sitting at the target path. -/
def fsDirAtPath : FS := [⟨fooLog, [], true⟩]

/-- A configuration with a 10-byte accumulation buffer and no size cap. -/
def cfgBuf : Config := ⟨fooLog, 0, 0, 0, false, false, false, 10⟩

/-- A fresh open writer over `cfgBuf` with an empty active file. -/
def wBuf : World := ⟨⟨cfgBuf, 0, true, false, [], false⟩, [⟨fooLog, [], false⟩]⟩

/-- A configuration keeping a single backup. -/
def cfgN1 : Config := ⟨fooLog, 10, 1, 0, false, false, false, 1⟩

/-- A configuration keeping one day of backups. -/
def cfgD1 : Config := ⟨fooLog, 10, 0, 1, false, false, false, 1⟩

/-- A configuration with compression enabled and no retention limits. -/
def cfgGz : Config := ⟨fooLog, 10, 0, 0, true, false, false, 1⟩

/-- A directory holding backups of two ages (the newer one together with a
compressed sibling), a non-backup file, a backup-named directory, and the
active file. -/
def fsRet : FS :=
  [⟨fooLog, [9], false⟩,
    ⟨backupName fooLog (1 * nsPerDay), [1], false⟩,
    ⟨backupName fooLog (5 * nsPerDay), [2], false⟩,
    ⟨backupName fooLog (5 * nsPerDay) ++ compressSuffix, [3], false⟩,
    ⟨"foobar.log.foo".data, [4], false⟩,
    ⟨backupName fooLog (3 * nsPerDay), [], true⟩]

/-- The state invariant of a buffered writer (threshold `K`, size-based
rotation disabled): the file holds the initial content followed by the
flushed-through bytes, the buffer holds the rest of everything written so
far, the buffer never exceeds `K`, and nothing at all has been flushed
while fewer than `K` bytes have accumulated. -/
def C3Inv (K : Nat) (base : List Char) (c0 : List Nat) (w : World)
    (written : List Nat) : Prop :=
  w.logger.closed = false ∧ w.logger.cfg.bufSize = K ∧ w.logger.cfg.maxBytes = 0 ∧
  w.logger.cfg.base = base ∧ w.logger.buf.length ≤ K ∧
  ∃ fl f, FS.lookup w.fs base = some f ∧ f.isDir = false ∧ f.content = c0 ++ fl ∧
    fl ++ w.logger.buf = written ∧ (written.length < K → fl = [])


end Lumberjack

namespace Lumberjack

/- ### Round-trip facts for the decimal timestamp rendering -/

theorem charDigit_digitChar : ∀ d : Nat, d < 10 → charDigit? (digitChar d) = some d := by
  decide

theorem fmtNatFuel_irrel : ∀ (n f1 f2 : Nat), n < f1 → n < f2 →
    fmtNatFuel f1 n = fmtNatFuel f2 n := by
  intro n
  induction n using Nat.strong_induction_on with
  | _ n ih =>
    intro f1 f2 h1 h2
    cases f1 with
    | zero => omega
    | succ g1 =>
      cases f2 with
      | zero => omega
      | succ g2 =>
        simp only [fmtNatFuel]
        by_cases h : n < 10
        · simp [h]
        · have hd : n / 10 < n := Nat.div_lt_self (by omega) (by omega)
          rw [ih (n / 10) hd g1 g2 (by omega) (by omega)]

theorem fmtNat_eq (n : Nat) :
    fmtNat n = if n < 10 then [digitChar n]
      else fmtNat (n / 10) ++ [digitChar (n % 10)] := by
  have h1 : fmtNat n = if n < 10 then [digitChar n]
      else fmtNatFuel n (n / 10) ++ [digitChar (n % 10)] := rfl
  rw [h1]
  by_cases h : n < 10
  · simp [h]
  · rw [if_neg h, if_neg h]
    have hd : n / 10 < n := Nat.div_lt_self (by omega) (by omega)
    have h2 : fmtNat (n / 10) = fmtNatFuel (n / 10 + 1) (n / 10) := rfl
    rw [h2, fmtNatFuel_irrel (n / 10) n (n / 10 + 1) hd (Nat.lt_succ_self _)]

theorem fmtNat_ne_nil (n : Nat) : fmtNat n ≠ [] := by
  rw [fmtNat_eq]
  split <;> simp

theorem parseNatFold_append (s t : List Char) (acc : Nat) :
    parseNatFold (s ++ t) acc =
      Option.bind (parseNatFold s acc) (parseNatFold t) := by
  induction s generalizing acc with
  | nil => simp [parseNatFold]
  | cons c rest ih =>
    simp only [List.cons_append, parseNatFold]
    cases charDigit? c with
    | some d => exact ih _
    | none => rfl

theorem parseNatFold_fmtNat (n : Nat) :
    ∀ acc : Nat, parseNatFold (fmtNat n) acc = some (acc * 10 ^ (fmtNat n).length + n) := by
  induction n using Nat.strong_induction_on with
  | _ n ih =>
    intro acc
    rw [fmtNat_eq]
    by_cases h : n < 10
    · simp only [h, if_pos]
      simp [parseNatFold, charDigit_digitChar n h]
    · simp only [h, if_neg, not_false_iff, Bool.false_eq_true]
      rw [parseNatFold_append]
      have hd : n / 10 < n := Nat.div_lt_self (by omega) (by omega)
      rw [ih (n / 10) hd acc]
      simp only [Option.bind_some, parseNatFold,
        charDigit_digitChar (n % 10) (Nat.mod_lt _ (by omega))]
      have hlen : (fmtNat (n / 10) ++ [digitChar (n % 10)]).length
          = (fmtNat (n / 10)).length + 1 := by simp
      simp only [Option.some_bind]
      rw [hlen]
      congr 1
      calc (acc * 10 ^ (fmtNat (n / 10)).length + n / 10) * 10 + n % 10
          = acc * 10 ^ (fmtNat (n / 10)).length * 10 + (10 * (n / 10) + n % 10) := by
            ring
        _ = acc * 10 ^ ((fmtNat (n / 10)).length + 1) + n := by
            rw [Nat.div_add_mod]; ring

theorem parseNat_fmtNat (n : Nat) : parseNat? (fmtNat n) = some n := by
  have hne : (fmtNat n).isEmpty = false := by
    cases hh : fmtNat n with
    | nil => exact absurd hh (fmtNat_ne_nil n)
    | cons a l => rfl
  rw [parseNat?, hne]
  simp only [Bool.false_eq_true, if_false]
  rw [parseNatFold_fmtNat n 0]
  simp

theorem strPref_append_self (a r : List Char) : strPref a (a ++ r) = true := by
  induction a with
  | nil => rfl
  | cons c cs ih => simp [strPref, ih]

theorem strSuff_append_self (e l : List Char) : strSuff e (l ++ e) = true := by
  unfold strSuff
  rw [List.reverse_append]
  exact strPref_append_self e.reverse l.reverse

theorem extOf_suffix (s : List Char) : ∃ st, st ++ extOf s = s := by
  induction s with
  | nil => exact ⟨[], rfl⟩
  | cons c rest ih =>
    rw [extOf]
    by_cases h : c = '.' ∧ '.' ∉ rest
    · exact ⟨[], by simp [h]⟩
    · obtain ⟨st, hst⟩ := ih
      exact ⟨c :: st, by simp [h, hst]⟩

/-- The codec's prefix together with the extension reassembles the base name
(with the joining dash in between). -/
theorem prefixAndExt_recomb (base : List Char) :
    ∃ st, (prefixAndExt base).1 = st ++ ['-'] ∧ st ++ (prefixAndExt base).2 = base := by
  obtain ⟨st, hst⟩ := extOf_suffix base
  refine ⟨st, ?_, hst⟩
  have hl : base.length - (extOf base).length = st.length := by
    have := congrArg List.length hst
    simp at this
    omega
  simp only [prefixAndExt, hl]
  rw [← hst, List.take_left]

theorem roundTrip (base : List Char) (t : Nat) :
    timeFromName (backupName base t) (prefixAndExt base).1 (prefixAndExt base).2
      = some ((t / nsPerMs) * nsPerMs) := by
  obtain ⟨st, hp, _⟩ := prefixAndExt_recomb base
  set p := (prefixAndExt base).1 with hpdef
  set e := (prefixAndExt base).2 with hedef
  have hname : backupName base t = p ++ (fmtNat (t / nsPerMs) ++ e) := by
    simp [backupName, ← hpdef, ← hedef, List.append_assoc]
  rw [hname, timeFromName, strPref_append_self]
  have hsuff : strSuff e (p ++ (fmtNat (t / nsPerMs) ++ e)) = true := by
    have := strSuff_append_self e (p ++ fmtNat (t / nsPerMs))
    simpa [List.append_assoc] using this
  rw [hsuff]
  simp only [if_true]
  have hdrop : (p ++ (fmtNat (t / nsPerMs) ++ e)).drop p.length
      = fmtNat (t / nsPerMs) ++ e := List.drop_left _ _
  have hlen : (p ++ (fmtNat (t / nsPerMs) ++ e)).length - p.length - e.length
      = (fmtNat (t / nsPerMs)).length := by
    simp [List.length_append]
  rw [hdrop, hlen, List.take_left, parseNat_fmtNat]

/-- The backup name is strictly longer than the base name, so it is never
the base name and never collides with it in a directory listing. -/
theorem length_backupName (base : List Char) (t : Nat) :
    (backupName base t).length = base.length + 1 + (fmtNat (t / nsPerMs)).length := by
  obtain ⟨st, hp, he⟩ := prefixAndExt_recomb base
  have hb : base.length = st.length + (prefixAndExt base).2.length := by
    have := congrArg List.length he
    simp at this
    omega
  simp [backupName, hp, hb, List.length_append]
  omega

theorem backupName_ne_base (base : List Char) (t : Nat) :
    backupName base t ≠ base := by
  intro h
  have := congrArg List.length h
  rw [length_backupName] at this
  omega

end Lumberjack

namespace Lumberjack

/- ### Directory-model lemmas -/

theorem lookup_cons (f : File) (fs : FS) (n : List Char) :
    FS.lookup (f :: fs) n = if f.name = n then some f else FS.lookup fs n := by
  by_cases h : f.name = n
  · simp [FS.lookup, List.find?_cons_of_pos, h]
  · simp [FS.lookup, List.find?_cons_of_neg, h]

theorem lookup_map_presName (g : File → File) (hg : ∀ f, (g f).name = f.name)
    (fs : FS) (m : List Char) :
    FS.lookup (List.map g fs) m = (FS.lookup fs m).map g := by
  induction fs with
  | nil => rfl
  | cons f fs ih =>
    by_cases h : f.name = m
    · have : (g f).name = m := by rw [hg]; exact h
      simp [FS.lookup, List.find?_cons_of_pos, h, this]
    · have : ¬(g f).name = m := by rw [hg]; exact h
      simp only [List.map_cons]
      rw [show FS.lookup (g f :: List.map g fs) m = FS.lookup (List.map g fs) m by
        simp [FS.lookup, List.find?_cons_of_neg, this]]
      rw [show FS.lookup (f :: fs) m = FS.lookup fs m by
        simp [FS.lookup, List.find?_cons_of_neg, h]]
      exact ih

theorem append_presName (n : List Char) (b : List Nat) (f : File) :
    ((fun f => if f.name = n ∧ f.isDir = false then
      { f with content := f.content ++ b } else f) f).name = f.name := by
  by_cases h : f.name = n ∧ f.isDir = false <;> simp [h]

theorem lookup_append_self (fs : FS) (n : List Char) (b : List Nat) (f : File)
    (hf : FS.lookup fs n = some f) (hd : f.isDir = false) :
    FS.lookup (FS.append fs n b) n = some { f with content := f.content ++ b } := by
  have hn : f.name = n := by
    have := List.find?_some hf
    simpa using this
  rw [FS.append, lookup_map_presName _ (append_presName n b), hf]
  simp [hn, hd]

theorem lookup_append_other (fs : FS) (n m : List Char) (b : List Nat) :
    FS.lookup (FS.append fs n b) m =
      (FS.lookup fs m).map (fun f => if f.name = n ∧ f.isDir = false then
        { f with content := f.content ++ b } else f) := by
  rw [FS.append, lookup_map_presName _ (append_presName n b)]

/-- Looking up the backup name after the rename of the rotation step finds
the prior active file carried over verbatim. -/
theorem lookup_rename (fs : FS) (base bn : List Char)
    (hfresh : ∀ f ∈ fs, f.name ≠ bn) :
    FS.lookup (List.map (fun f => if f.name = base then { f with name := bn } else f) fs) bn
      = (FS.lookup fs base).map (fun f => { f with name := bn }) := by
  induction fs with
  | nil => rfl
  | cons f fs ih =>
    have hfr : f.name ≠ bn := hfresh f (by simp)
    have ihh := ih (fun g hg => hfresh g (by simp [hg]))
    by_cases h : f.name = base
    · simp only [List.map_cons, h, if_pos rfl]
      rw [lookup_cons, lookup_cons]
      simp [h]
    · simp only [List.map_cons, if_neg h]
      rw [lookup_cons, lookup_cons]
      simp only [if_neg hfr, if_neg h]
      exact ihh

/- ### Retention-scanner lemmas -/

theorem decodeEntry_name (base : List Char) (f : File) (i : LogInfo)
    (h : decodeEntry base f = some i) :
    i.name = f.name ∧ f.isDir = false ∧ f.name ≠ base := by
  unfold decodeEntry at h
  by_cases hd : f.isDir = true
  · simp [hd] at h
  · by_cases hb : f.name = base
    · simp [hd, hb] at h
    · refine ⟨?_, by simpa using hd, hb⟩
      simp only [hd, hb, if_false, Bool.false_eq_true] at h
      rcases htf : timeFromName f.name (prefixAndExt base).1 (prefixAndExt base).2 with _ | t
      · rw [htf] at h
        by_cases hs : strSuff compressSuffix f.name
        · simp only [hs, if_true] at h
          rcases htf2 : timeFromName (f.name.take (f.name.length - compressSuffix.length))
              (prefixAndExt base).1 (prefixAndExt base).2 with _ | t2
          · rw [htf2] at h; simp at h
          · rw [htf2] at h
            cases h
            rfl
        · simp [hs] at h
      · rw [htf] at h
        cases h
        rfl

theorem mem_oldLogFiles (fs : FS) (base : List Char) (i : LogInfo) :
    i ∈ oldLogFiles fs base ↔ ∃ f ∈ fs, decodeEntry base f = some i := by
  unfold oldLogFiles
  rw [(List.perm_insertionSort tsGe _).mem_iff, List.mem_filterMap]

theorem oldLogFiles_pairwise (fs : FS) (base : List Char) :
    (oldLogFiles fs base).Pairwise (fun a b => b.timestamp ≤ a.timestamp) :=
  List.sorted_insertionSort tsGe _

theorem name_inj (fs : FS) (hnd : (fs.map File.name).Nodup)
    {f g : File} (hf : f ∈ fs) (hg : g ∈ fs) (h : f.name = g.name) : f = g :=
  List.inj_on_of_nodup_map hnd hf hg h

/-- The core characterisation of one maintenance pass when compression is
off: an entry survives iff it is not a backup descriptor selected for
removal; non-backup entries always survive. -/
theorem millPass_mem (cfg : Config) (now : Nat) (fs : FS)
    (hnd : (fs.map File.name).Nodup) (hcz : cfg.compress = false) (f : File) (hf : f ∈ fs) :
    (decodeEntry cfg.base f = none → f ∈ millPass cfg now fs) ∧
    (∀ i, decodeEntry cfg.base f = some i →
      (f ∈ millPass cfg now fs ↔
        millRemove cfg now (oldLogFiles fs cfg.base) i = false)) := by
  have hpass : millPass cfg now fs =
      List.filter (fun g => decide (g.name ∉
        ((oldLogFiles fs cfg.base).filter
          (millRemove cfg now (oldLogFiles fs cfg.base))).map LogInfo.name)) fs := by
    unfold millPass
    rw [hcz]
    simp
  set files := oldLogFiles fs cfg.base with hfiles
  set rn := (files.filter (millRemove cfg now files)).map LogInfo.name with hrn
  have hmem : f ∈ millPass cfg now fs ↔ f ∈ fs ∧ f.name ∉ rn := by
    rw [hpass]
    rw [List.mem_filter]
    simp [← hrn]
  have hname_implies : f.name ∈ rn → ∃ j, decodeEntry cfg.base f = some j ∧
      millRemove cfg now files j = true := by
    intro hin
    rw [hrn, List.mem_map] at hin
    obtain ⟨j, hjmem, hjn⟩ := hin
    rw [List.mem_filter] at hjmem
    obtain ⟨hjf, hjrem⟩ := hjmem
    rw [hfiles, mem_oldLogFiles] at hjf
    obtain ⟨g, hg, hdecg⟩ := hjf
    have hgn : j.name = g.name := (decodeEntry_name _ _ _ hdecg).1
    have : g = f := name_inj fs hnd hg hf (by rw [← hgn, hjn])
    exact ⟨j, by rw [← this]; exact hdecg, hjrem⟩
  constructor
  · intro hnone
    rw [hmem]
    refine ⟨hf, fun hin => ?_⟩
    obtain ⟨j, hj, _⟩ := hname_implies hin
    rw [hnone] at hj
    exact Option.noConfusion hj
  · intro i hdec
    rw [hmem]
    constructor
    · rintro ⟨-, hnin⟩
      by_contra hrem
      rw [Bool.not_eq_false] at hrem
      apply hnin
      rw [hrn, List.mem_map]
      refine ⟨i, ?_, (decodeEntry_name _ _ _ hdec).1⟩
      rw [List.mem_filter]
      exact ⟨by rw [hfiles, mem_oldLogFiles]; exact ⟨f, hf, hdec⟩, hrem⟩
    · intro hrem
      refine ⟨hf, fun hin => ?_⟩
      obtain ⟨j, hj, hjrem⟩ := hname_implies hin
      rw [hdec] at hj
      cases hj
      rw [hrem] at hjrem
      exact Bool.noConfusion hjrem

/-- The retained count-pruning timestamps are the newest distinct ones:
every timestamp kept dominates every distinct timestamp dropped. -/
theorem keepByCount_newest (N : Nat) (files : List LogInfo)
    (hs : files.Pairwise (fun a b => b.timestamp ≤ a.timestamp)) :
    ∀ t ∈ keepByCount N files, ∀ u ∈ allTimestamps files,
      u ∉ keepByCount N files → u < t := by
  intro t ht u hu hun
  have hsort : (allTimestamps files).Pairwise (fun a b => b ≤ a) := by
    unfold allTimestamps
    exact (List.pairwise_map.mpr hs).sublist (List.dedup_sublist _)
  have hnd : (allTimestamps files).Nodup := List.nodup_dedup _
  have hsplit := List.take_append_drop N (allTimestamps files)
  have hu2 : u ∈ (allTimestamps files).take N ++ (allTimestamps files).drop N := by
    rw [hsplit]; exact hu
  rw [List.mem_append] at hu2
  rcases hu2 with h | h
  · exact absurd h hun
  · have hpw : ((allTimestamps files).take N ++ (allTimestamps files).drop N).Pairwise
        (fun a b => b ≤ a) := by rw [hsplit]; exact hsort
    have hle : u ≤ t := (List.pairwise_append.mp hpw).2.2 t ht u h
    have hnd2 : ((allTimestamps files).take N ++ (allTimestamps files).drop N).Nodup := by
      rw [hsplit]; exact hnd
    have hdisj := (List.nodup_append.mp hnd2).2.2
    have hne : t ≠ u := by
      intro he
      exact hdisj ht (he ▸ h)
    omega

end Lumberjack

namespace Lumberjack

/- ### Buffering-layer lemmas -/

theorem bufioWrite_spec (K : Nat) (buf p : List Nat) (hbuf : buf.length ≤ K) :
    (bufioWrite K buf p).1 ++ (bufioWrite K buf p).2 = buf ++ p ∧
    (bufioWrite K buf p).2.length ≤ K ∧
    (buf.length + p.length ≤ K → bufioWrite K buf p = ([], buf ++ p)) := by
  unfold bufioWrite
  by_cases h1 : buf.length + p.length ≤ K
  · simp [h1]
  · rw [if_neg h1]
    by_cases h2 : buf.length = 0
    · rw [if_pos h2]
      have hbe : buf = [] := List.length_eq_zero.mp h2
      subst hbe
      exact ⟨by simp, by simp, fun hc => absurd hc h1⟩
    · rw [if_neg h2]
      by_cases h3 : (p.drop (K - buf.length)).length ≤ K
      · rw [if_pos h3]
        exact ⟨by simp [List.append_assoc, List.take_append_drop], h3,
          fun hc => absurd hc h1⟩
      · rw [if_neg h3]
        exact ⟨by simp [List.append_assoc, List.take_append_drop], by simp,
          fun hc => absurd hc h1⟩

theorem C3Inv_write (K : Nat) (base : List Char) (c0 : List Nat) (w : World)
    (written b : List Nat) (hK : 2 ≤ K) (h : C3Inv K base c0 w written) (now : Nat) :
    C3Inv K base c0 (writeOp now b w).2 (written ++ b) := by
  obtain ⟨hcl, hbs, hmb, hbase, hblen, fl, f, hlook, hdir, hcont, hsum, hsmall⟩ := h
  have hw : (writeOp now b w).2 =
      ⟨{ w.logger with
          buf := (bufioWrite K w.logger.buf b).2,
          size := w.logger.size + (bufioWrite K w.logger.buf b).1.length },
        FS.append w.fs base (bufioWrite K w.logger.buf b).1⟩ := by
    simp [writeOp, bufferedWrite, hcl, hmb, hbs, hbase, show ¬K ≤ 1 by omega]
  obtain ⟨hflush, hlen2, hfits⟩ := bufioWrite_spec K w.logger.buf b hblen
  rw [hw]
  refine ⟨hcl, hbs, hmb, hbase, hlen2, fl ++ (bufioWrite K w.logger.buf b).1,
    { f with content := f.content ++ (bufioWrite K w.logger.buf b).1 }, ?_, hdir, ?_, ?_, ?_⟩
  · exact lookup_append_self w.fs base _ f hlook hdir
  · rw [hcont, List.append_assoc]
  · simp only [List.append_assoc]
    rw [hflush, ← List.append_assoc, hsum]
  · intro hsm
    have hw2 : written.length < K := by
      have := List.length_append written b
      omega
    have hfl := hsmall hw2
    have hbufw : w.logger.buf = written := by
      rw [hfl] at hsum
      simpa using hsum
    have hfit : w.logger.buf.length + b.length ≤ K := by
      rw [hbufw]
      have := List.length_append written b
      omega
    rw [hfits hfit, hfl]
    rfl

theorem C3Inv_runWrites (K : Nat) (base : List Char) (c0 : List Nat) (now : Nat)
    (hK : 2 ≤ K) :
    ∀ (bs : List (List Nat)) (w : World) (written : List Nat),
      C3Inv K base c0 w written →
      C3Inv K base c0 (runWrites now bs w) (written ++ bs.flatten) := by
  intro bs
  induction bs with
  | nil => intro w written h; simpa [runWrites] using h
  | cons b bs ih =>
    intro w written h
    have h1 := C3Inv_write K base c0 w written b hK h now
    have h2 := ih (writeOp now b w).2 (written ++ b) h1
    simpa [runWrites, List.append_assoc] using h2

theorem C3Inv_flush (K : Nat) (base : List Char) (c0 : List Nat) (w : World)
    (written : List Nat) (h : C3Inv K base c0 w written) :
    visible (flushW w) = some (c0 ++ written) ∧
    visible (closeW w) = some (c0 ++ written) := by
  obtain ⟨hcl, hbs, hmb, hbase, hblen, fl, f, hlook, hdir, hcont, hsum, hsmall⟩ := h
  have hflush : visible (flushW w) = some (c0 ++ written) := by
    unfold flushW visible
    by_cases hb : w.logger.buf.isEmpty
    · have hbe : w.logger.buf = [] := by
        cases hbb : w.logger.buf with
        | nil => rfl
        | cons x xs => rw [hbb] at hb; exact absurd hb (by simp [List.isEmpty])
      rw [if_pos hb]
      rw [hbase, hlook]
      rw [hbe] at hsum
      simp at hsum
      simp [hcont, hsum]
    · rw [if_neg hb]
      simp only [hbase]
      rw [lookup_append_self w.fs base _ f hlook hdir]
      simp [hcont, List.append_assoc, hsum]
  refine ⟨hflush, ?_⟩
  unfold closeW visible
  unfold visible at hflush
  simpa using hflush

/- ### Closed-state permanence -/

theorem closed_applyOp (w : World) (op : Op) (h : w.logger.closed = true) :
    (applyOp w op).logger.closed = true := by
  cases op with
  | write now b => simp [applyOp, writeOp, h]
  | flush =>
    simp only [applyOp, flushW]
    by_cases hb : w.logger.buf.isEmpty <;> simp [hb, h]
  | rot now => simp [applyOp, rotateOp, h]
  | close => simp [applyOp, closeW]

theorem closed_runOps (ops : List Op) (w : World) (h : w.logger.closed = true) :
    (runOps w ops).logger.closed = true := by
  induction ops generalizing w with
  | nil => simpa [runOps] using h
  | cons op ops ih =>
    rw [runOps, List.foldl_cons]
    exact ih _ (closed_applyOp w op h)

end Lumberjack





namespace Lumberjack

/- ### Claim theorems -/

/-- C7: decoding the backup name produced by encoding the base path with a
timestamp of at most millisecond precision recovers exactly that
timestamp; and decode fails with an error — never a default time — on any
candidate name that does not start with the prefix, does not end with the
extension, or whose middle segment does not parse against the timestamp
format. -/
theorem c7_codec_roundtrip_and_strict :
    (∀ (base : List Char) (t : Nat), 1000000 ∣ t →
      timeFromName (backupName base t) (prefixAndExt base).1 (prefixAndExt base).2
        = some t) ∧
    (∀ (base name : List Char),
      (strPref (prefixAndExt base).1 name = false ∨
        strSuff (prefixAndExt base).2 name = false ∨
        parseNat? ((name.drop (prefixAndExt base).1.length).take
          (name.length - (prefixAndExt base).1.length - (prefixAndExt base).2.length))
          = none) →
      timeFromName name (prefixAndExt base).1 (prefixAndExt base).2 = none) := by
  constructor
  · intro base t ht
    rw [roundTrip base t]
    exact congrArg some (Nat.div_mul_cancel ht)
  · intro base name h
    rcases h with h | h | h
    · simp [timeFromName, h]
    · simp [timeFromName, h]
    · simp [timeFromName, h]

theorem c7_witness :
    ((1000000 ∣ 5000000) ∧
      timeFromName (backupName fooLog 5000000) (prefixAndExt fooLog).1
        (prefixAndExt fooLog).2 = some 5000000) ∧
    (strPref (prefixAndExt fooLog).1 booLog = false ∧
      timeFromName booLog (prefixAndExt fooLog).1 (prefixAndExt fooLog).2 = none) :=
  ⟨⟨⟨5, rfl⟩, c7_codec_roundtrip_and_strict.1 fooLog 5000000 ⟨5, rfl⟩⟩,
    ⟨by decide, c7_codec_roundtrip_and_strict.2 fooLog booLog (Or.inl (by decide))⟩⟩

/-- C2: a write longer than `maxBytes` (when set) returns zero bytes
written together with the descriptive "… exceeds maximum file size …"
error, performs no rotation, and leaves the writer state and the whole
directory (hence the target file) unchanged, so the writer stays usable. -/
theorem c2_write_too_long (w : World) (now : Nat) (b : List Nat)
    (hcl : w.logger.closed = false)
    (hmb : w.logger.cfg.maxBytes ≠ 0)
    (hlen : w.logger.cfg.maxBytes < b.length) :
    writeOp now b w = ((0, some (.tooLong b.length w.logger.cfg.maxBytes)), w) ∧
    (∃ u v, errMsg (.tooLong b.length w.logger.cfg.maxBytes) =
      u ++ "exceeds maximum file size".data ++ v) := by
  constructor
  · simp [writeOp, hcl, hmb, hlen]
  · refine ⟨"write length ".data ++ fmtNat b.length ++ [' '],
      [' '] ++ fmtNat w.logger.cfg.maxBytes, ?_⟩
    have hs : " exceeds maximum file size ".data =
        ([' '] : List Char) ++ "exceeds maximum file size".data ++ [' '] := by decide
    simp [errMsg, hs, List.append_assoc]

theorem c2_witness :
    (w10.logger.closed = false ∧ w10.logger.cfg.maxBytes ≠ 0 ∧
      w10.logger.cfg.maxBytes < (List.range 17).length) ∧
    (writeOp 0 (List.range 17) w10
        = ((0, some (.tooLong (List.range 17).length w10.logger.cfg.maxBytes)), w10) ∧
      ∃ u v, errMsg (.tooLong (List.range 17).length w10.logger.cfg.maxBytes) =
        u ++ "exceeds maximum file size".data ++ v) :=
  ⟨⟨rfl, by decide, by decide⟩,
    c2_write_too_long w10 0 (List.range 17) rfl (by decide) (by decide)⟩

/-- C9: after `close`, every subsequent write — no matter what sequence of
further operations has run in between — fails with the "file close" error
and writes zero bytes, leaving the world unchanged; the closed mark is
permanent. -/
theorem c9_closed_permanent (w : World) :
    errMsg .closed = "file close".data ∧
    ∀ (ops : List Op) (now : Nat) (b : List Nat),
      (runOps (closeW w) ops).logger.closed = true ∧
      writeOp now b (runOps (closeW w) ops)
        = ((0, some .closed), runOps (closeW w) ops) := by
  refine ⟨rfl, fun ops now b => ?_⟩
  have hcl : (runOps (closeW w) ops).logger.closed = true :=
    closed_runOps ops (closeW w) (by simp [closeW])
  exact ⟨hcl, by simp [writeOp, hcl]⟩

/-- C10: the constructor eagerly opens or creates the target file before
returning — after a successful `New` a file exists at the configured path,
empty when it did not pre-exist, with its prior content (and its length as
the initial `size`) when it did; and when opening fails (a directory sits
at the path) `New` returns the error and no writer. -/
theorem c10_new_eager (cfg : Config) (fs : FS) :
    (FS.lookup fs cfg.base = none →
      New cfg fs = .ok (⟨cfg, 0, true, false, [], false⟩, ⟨cfg.base, [], false⟩ :: fs) ∧
      FS.lookup (⟨cfg.base, [], false⟩ :: fs) cfg.base = some ⟨cfg.base, [], false⟩) ∧
    (∀ f, FS.lookup fs cfg.base = some f → f.isDir = false →
      New cfg fs = .ok (⟨cfg, f.content.length, true, false, [], false⟩, fs)) ∧
    (∀ f, FS.lookup fs cfg.base = some f → f.isDir = true →
      New cfg fs = .error .openFail) := by
  refine ⟨fun h => ⟨by simp [New, openEON, h], ?_⟩, fun f h hd => ?_, fun f h hd => ?_⟩
  · rw [lookup_cons]
    simp
  · simp [New, openEON, h, hd]
  · simp [New, openEON, h, hd]

theorem c10_witness :
    (FS.lookup ([] : FS) cfgPlain.base = none ∧
      New cfgPlain [] = .ok (⟨cfgPlain, 0, true, false, [], false⟩,
        ⟨cfgPlain.base, [], false⟩ :: ([] : FS)) ∧
      FS.lookup (⟨cfgPlain.base, [], false⟩ :: ([] : FS)) cfgPlain.base
        = some ⟨cfgPlain.base, [], false⟩) ∧
    (FS.lookup fsDirAtPath cfgPlain.base = some ⟨fooLog, [], true⟩ ∧
      New cfgPlain fsDirAtPath = .error .openFail) :=
  ⟨⟨by decide, (c10_new_eager cfgPlain []).1 (by decide)⟩,
    ⟨by decide, (c10_new_eager cfgPlain fsDirAtPath).2.2 ⟨fooLog, [], true⟩
      (by decide) (by decide)⟩⟩

/-- C8: the retention scan's output contains exactly one descriptor for
each directory entry that is not a directory, is not the active base file,
and decodes either plainly or after stripping the compressed suffix
(plain decode tried first); everything else is discarded; and the output
is sorted by decoded timestamp, newest first. -/
theorem c8_scan_characterisation (fs : FS) (base : List Char) :
    (∀ i : LogInfo, i ∈ oldLogFiles fs base ↔
      ∃ f ∈ fs, f.isDir = false ∧ f.name ≠ base ∧ i.name = f.name ∧
        ((timeFromName f.name (prefixAndExt base).1 (prefixAndExt base).2
            = some i.timestamp ∧ i.compressed = false) ∨
          (timeFromName f.name (prefixAndExt base).1 (prefixAndExt base).2 = none ∧
            strSuff compressSuffix f.name = true ∧
            timeFromName (f.name.take (f.name.length - compressSuffix.length))
              (prefixAndExt base).1 (prefixAndExt base).2 = some i.timestamp ∧
            i.compressed = true))) ∧
    (oldLogFiles fs base).Pairwise (fun a b => b.timestamp ≤ a.timestamp) := by
  refine ⟨fun i => ?_, oldLogFiles_pairwise fs base⟩
  rw [mem_oldLogFiles]
  refine exists_congr fun f => and_congr_right fun _ => ?_
  obtain ⟨its, inm, icp⟩ := i
  unfold decodeEntry
  by_cases hd : f.isDir = true
  · simp [hd]
  · have hd2 : f.isDir = false := by simpa using hd
    by_cases hb : f.name = base
    · simp [hd, hb]
    · simp only [hd, hb, if_false, Bool.false_eq_true, hd2, ne_eq, not_false_iff, true_and]
      rcases htf : timeFromName f.name (prefixAndExt base).1 (prefixAndExt base).2 with _ | t
      · by_cases hs : strSuff compressSuffix f.name
        · rcases htf2 : timeFromName (f.name.take (f.name.length - compressSuffix.length))
              (prefixAndExt base).1 (prefixAndExt base).2 with _ | t2
          · simp [hs]
          · simp only [hs, if_true, Option.some.injEq, LogInfo.mk.injEq, true_and]
            constructor
            · rintro ⟨h1, h2, h3⟩
              exact ⟨h2.symm, Or.inr ⟨h1, h3.symm⟩⟩
            · rintro ⟨h1, h | h⟩
              · exact absurd h.1 (by simp)
              · exact ⟨h.1, h1.symm, h.2.symm⟩
        · simp [hs]
      · simp only [Option.some.injEq, LogInfo.mk.injEq]
        constructor
        · rintro ⟨h1, h2, h3⟩
          exact ⟨h2.symm, Or.inl ⟨h1, h3.symm⟩⟩
        · rintro ⟨h1, h | h⟩
          · exact ⟨h.1, h1.symm, h.2.symm⟩
          · exact absurd h.1 (by simp)


/-- C1: a write that fits the size cap by itself but would push `size`
past `maxBytes` rotates before appending: the full write is accepted, the
prior content of the active file appears verbatim in a newly created
backup file named with the current (controlled) time, and the active file
afterwards contains exactly the new write's bytes (default unbuffered
configuration, non-rewrite mode). -/
theorem c1_auto_rotate (w : World) (now : Nat) (b : List Nat) (f0 : File)
    (hcl : w.logger.closed = false)
    (hbuf : w.logger.cfg.bufSize ≤ 1)
    (hopen : w.logger.isOpen = true)
    (hmb : w.logger.cfg.maxBytes ≠ 0)
    (hlen : b.length ≤ w.logger.cfg.maxBytes)
    (hover : w.logger.cfg.maxBytes < w.logger.size + b.length)
    (hrw : w.logger.cfg.rewrite = false)
    (hlook : FS.lookup w.fs w.logger.cfg.base = some f0)
    (hdir : f0.isDir = false)
    (hfresh : ∀ f ∈ w.fs, f.name ≠ backupName w.logger.cfg.base now) :
    (writeOp now b w).1 = (b.length, none) ∧
    FS.lookup (writeOp now b w).2.fs (backupName w.logger.cfg.base now)
      = some ⟨backupName w.logger.cfg.base now, f0.content, false⟩ ∧
    FS.lookup (writeOp now b w).2.fs w.logger.cfg.base
      = some ⟨w.logger.cfg.base, b, false⟩ ∧
    (writeOp now b w).2.logger.size = b.length := by
  have hA : ¬(w.logger.cfg.maxBytes < b.length) := by omega
  have hnb : backupName w.logger.cfg.base now ≠ w.logger.cfg.base :=
    backupName_ne_base _ now
  have hfilter : List.filter
      (fun f => !decide (f.name = backupName w.logger.cfg.base now)) w.fs = w.fs :=
    List.filter_eq_self.mpr (fun f hf => by simpa using hfresh f hf)
  have hstep : (writeOp now b w).2 =
      ⟨{ w.logger with size := b.length, isOpen := true, millPending := true },
        FS.append (⟨w.logger.cfg.base, [], false⟩ ::
          List.map (fun f => if f.name = w.logger.cfg.base then
            { f with name := backupName w.logger.cfg.base now } else f) w.fs)
          w.logger.cfg.base b⟩ := by
    simp [writeOp, rcWrite, rotateStep, hcl, hA, hbuf, hopen, hmb, hover, hrw, hfilter]
  have hlk1 : FS.lookup (⟨w.logger.cfg.base, [], false⟩ ::
      List.map (fun f => if f.name = w.logger.cfg.base then
        { f with name := backupName w.logger.cfg.base now } else f) w.fs)
      (backupName w.logger.cfg.base now) = some ⟨backupName w.logger.cfg.base now,
        f0.content, f0.isDir⟩ := by
    rw [lookup_cons,
      if_neg (show ¬((⟨w.logger.cfg.base, [], false⟩ : File).name
        = backupName w.logger.cfg.base now) from fun h => hnb h.symm),
      lookup_rename w.fs _ _ hfresh, hlook]
    rfl
  refine ⟨?_, ?_, ?_, ?_⟩
  · simp [writeOp, rcWrite, hcl, hA, hbuf, hopen]
  · rw [hstep]
    show FS.lookup (FS.append _ _ _) _ = _
    unfold FS.append
    rw [lookup_map_presName _ (append_presName _ _), hlk1]
    simp [hnb, hdir]
  · rw [hstep]
    show FS.lookup (FS.append _ _ _) _ = _
    unfold FS.append
    rw [lookup_map_presName _ (append_presName _ _), lookup_cons]
    simp
  · rw [hstep]

theorem c1_witness :
    (w10.logger.closed = false ∧ w10.logger.cfg.bufSize ≤ 1 ∧
      w10.logger.isOpen = true ∧ w10.logger.cfg.maxBytes ≠ 0 ∧
      ([5, 6, 7, 8, 9, 10, 11, 12] : List Nat).length ≤ w10.logger.cfg.maxBytes ∧
      w10.logger.cfg.maxBytes < w10.logger.size +
        ([5, 6, 7, 8, 9, 10, 11, 12] : List Nat).length ∧
      w10.logger.cfg.rewrite = false ∧
      FS.lookup w10.fs w10.logger.cfg.base = some ⟨fooLog, [1, 2, 3, 4], false⟩ ∧
      (∀ f ∈ w10.fs, f.name ≠ backupName w10.logger.cfg.base 0)) ∧
    ((writeOp 0 [5, 6, 7, 8, 9, 10, 11, 12] w10).1
        = (([5, 6, 7, 8, 9, 10, 11, 12] : List Nat).length, none) ∧
      FS.lookup (writeOp 0 [5, 6, 7, 8, 9, 10, 11, 12] w10).2.fs
          (backupName w10.logger.cfg.base 0)
        = some ⟨backupName w10.logger.cfg.base 0, [1, 2, 3, 4], false⟩ ∧
      FS.lookup (writeOp 0 [5, 6, 7, 8, 9, 10, 11, 12] w10).2.fs w10.logger.cfg.base
        = some ⟨w10.logger.cfg.base, [5, 6, 7, 8, 9, 10, 11, 12], false⟩ ∧
      (writeOp 0 [5, 6, 7, 8, 9, 10, 11, 12] w10).2.logger.size
        = ([5, 6, 7, 8, 9, 10, 11, 12] : List Nat).length) :=
  ⟨⟨by decide, by decide, by decide, by decide, by decide, by decide, by decide,
      by decide, by decide⟩,
    c1_auto_rotate w10 0 [5, 6, 7, 8, 9, 10, 11, 12] ⟨fooLog, [1, 2, 3, 4], false⟩
      (by decide) (by decide) (by decide) (by decide) (by decide) (by decide)
      (by decide) (by decide) (by decide) (by decide)⟩


/-- C3 (counterexample to the claim as stated): with the 10-byte buffer of
TestBufferSize, after writes of 5 and 7 bytes the accumulated 12 bytes
have reached the threshold, yet the target file holds only the first 10
bytes — not all buffered bytes become visible once the threshold is
reached (exactly what the in-repo test asserts); and after two 5-byte
writes that exactly fill the buffer, nothing is visible at all. -/
theorem c3_counterexample :
    (10 ≤ ([1, 2, 3, 4, 5] : List Nat).length +
        ([6, 7, 8, 9, 10, 11, 12] : List Nat).length ∧
      visible (runWrites 0 [[1, 2, 3, 4, 5], [6, 7, 8, 9, 10, 11, 12]] wBuf)
        ≠ some ([1, 2, 3, 4, 5] ++ [6, 7, 8, 9, 10, 11, 12])) ∧
    (10 ≤ ([1, 2, 3, 4, 5] : List Nat).length + ([6, 7, 8, 9, 10] : List Nat).length ∧
      visible (runWrites 0 [[1, 2, 3, 4, 5], [6, 7, 8, 9, 10]] wBuf) = some []) := by
  decide

/-- C3 (amended): with buffering configured to threshold `K` and no size
cap, over every sequence of writes: while fewer than `K` bytes have
accumulated, none of them are visible in the target file; at every point
the visible bytes followed by the buffered bytes are exactly the initial
content followed by the concatenation of all writes (no byte lost or
duplicated across the buffer boundary) and the buffer holds at most `K`
bytes; and calling flush or close makes all accumulated bytes visible.
(Reaching `K` flushes only full buffer-sized chunks through, not
necessarily everything — see the counterexample.) -/
theorem c3_buffered_amended (K : Nat) (hK : 2 ≤ K) (w : World) (c0 : List Nat)
    (f0 : File)
    (hcl : w.logger.closed = false) (hbs : w.logger.cfg.bufSize = K)
    (hmb : w.logger.cfg.maxBytes = 0) (hbuf0 : w.logger.buf = [])
    (hlook : FS.lookup w.fs w.logger.cfg.base = some f0) (hdir : f0.isDir = false)
    (hc0 : f0.content = c0) (now : Nat) (bs : List (List Nat)) :
    (∃ fl, visible (runWrites now bs w) = some (c0 ++ fl) ∧
      fl ++ (runWrites now bs w).logger.buf = bs.flatten ∧
      (runWrites now bs w).logger.buf.length ≤ K ∧
      (bs.flatten.length < K → fl = [])) ∧
    visible (flushW (runWrites now bs w)) = some (c0 ++ bs.flatten) ∧
    visible (closeW (runWrites now bs w)) = some (c0 ++ bs.flatten) := by
  have hinv : C3Inv K w.logger.cfg.base c0 w [] :=
    ⟨hcl, hbs, hmb, rfl, by simp [hbuf0], [], f0, hlook, hdir, by simp [hc0],
      by simp [hbuf0], fun _ => rfl⟩
  have hrun := C3Inv_runWrites K w.logger.cfg.base c0 now hK bs w [] hinv
  simp only [List.nil_append] at hrun
  have hfc := C3Inv_flush K w.logger.cfg.base c0 (runWrites now bs w) bs.flatten hrun
  obtain ⟨hcl2, hbs2, hmb2, hbase2, hblen2, fl, f, hlook2, hdir2, hcont2, hsum2, hsm2⟩ :=
    hrun
  refine ⟨⟨fl, ?_, hsum2, hblen2, hsm2⟩, hfc.1, hfc.2⟩
  unfold visible
  rw [hbase2, hlook2]
  simp [hcont2]

theorem c3_witness :
    (2 ≤ 10 ∧ wBuf.logger.closed = false ∧ wBuf.logger.cfg.bufSize = 10 ∧
      wBuf.logger.cfg.maxBytes = 0 ∧ wBuf.logger.buf = [] ∧
      FS.lookup wBuf.fs wBuf.logger.cfg.base = some ⟨fooLog, [], false⟩ ∧
      (⟨fooLog, [], false⟩ : File).isDir = false ∧
      (⟨fooLog, [], false⟩ : File).content = ([] : List Nat)) ∧
    ((∃ fl, visible (runWrites 0 [[1, 2, 3, 4, 5], [6, 7, 8, 9, 10, 11, 12]] wBuf)
          = some (([] : List Nat) ++ fl) ∧
        fl ++ (runWrites 0 [[1, 2, 3, 4, 5], [6, 7, 8, 9, 10, 11, 12]] wBuf).logger.buf
          = ([[1, 2, 3, 4, 5], [6, 7, 8, 9, 10, 11, 12]] : List (List Nat)).flatten ∧
        (runWrites 0 [[1, 2, 3, 4, 5], [6, 7, 8, 9, 10, 11, 12]] wBuf).logger.buf.length
          ≤ 10 ∧
        (([[1, 2, 3, 4, 5], [6, 7, 8, 9, 10, 11, 12]] : List (List Nat)).flatten.length < 10
          → fl = [])) ∧
      visible (flushW (runWrites 0 [[1, 2, 3, 4, 5], [6, 7, 8, 9, 10, 11, 12]] wBuf))
        = some (([] : List Nat) ++
          ([[1, 2, 3, 4, 5], [6, 7, 8, 9, 10, 11, 12]] : List (List Nat)).flatten) ∧
      visible (closeW (runWrites 0 [[1, 2, 3, 4, 5], [6, 7, 8, 9, 10, 11, 12]] wBuf))
        = some (([] : List Nat) ++
          ([[1, 2, 3, 4, 5], [6, 7, 8, 9, 10, 11, 12]] : List (List Nat)).flatten)) :=
  ⟨⟨by decide, by decide, by decide, by decide, by decide, by decide, by decide,
      by decide⟩,
    c3_buffered_amended 10 (by decide) wBuf [] ⟨fooLog, [], false⟩ (by decide)
      (by decide) (by decide) (by decide) (by decide) (by decide) (by decide) 0
      [[1, 2, 3, 4, 5], [6, 7, 8, 9, 10, 11, 12]]⟩


/-- C4: with `maxBackups = N > 0` (age limit off, compression off), a
completed maintenance pass never deletes directories or entries that do
not decode as backups; it keeps a backup exactly when its timestamp is
among the `N` newest distinct backup timestamps — so a compressed and an
uncompressed file sharing one timestamp count as a single logical backup
and share one fate — and the retained timestamp set has size
`min N (number of distinct timestamps)`, each retained timestamp
dominating every distinct timestamp dropped. -/
theorem c4_max_backups (cfg : Config) (now : Nat) (fs : FS)
    (hnd : (fs.map File.name).Nodup) (hN : cfg.maxBackups ≠ 0)
    (hD : cfg.maxDays = 0) (hcz : cfg.compress = false) :
    (∀ f ∈ fs, f.isDir = true → f ∈ millPass cfg now fs) ∧
    (∀ f ∈ fs, decodeEntry cfg.base f = none → f ∈ millPass cfg now fs) ∧
    (∀ f ∈ fs, ∀ i, decodeEntry cfg.base f = some i →
      (f ∈ millPass cfg now fs ↔
        i.timestamp ∈ keepByCount cfg.maxBackups (oldLogFiles fs cfg.base))) ∧
    (∀ f ∈ fs, ∀ g ∈ fs, ∀ i j, decodeEntry cfg.base f = some i →
      decodeEntry cfg.base g = some j → i.timestamp = j.timestamp →
      (f ∈ millPass cfg now fs ↔ g ∈ millPass cfg now fs)) ∧
    (keepByCount cfg.maxBackups (oldLogFiles fs cfg.base)).length
      = min cfg.maxBackups (allTimestamps (oldLogFiles fs cfg.base)).length ∧
    (∀ t ∈ keepByCount cfg.maxBackups (oldLogFiles fs cfg.base),
      ∀ u ∈ allTimestamps (oldLogFiles fs cfg.base),
        u ∉ keepByCount cfg.maxBackups (oldLogFiles fs cfg.base) → u < t) := by
  have hiff : ∀ f ∈ fs, ∀ i, decodeEntry cfg.base f = some i →
      (f ∈ millPass cfg now fs ↔
        i.timestamp ∈ keepByCount cfg.maxBackups (oldLogFiles fs cfg.base)) := by
    intro f hf i hdec
    rw [(millPass_mem cfg now fs hnd hcz f hf).2 i hdec]
    simp [millRemove, hN, hD]
  refine ⟨?_, ?_, hiff, ?_, ?_, ?_⟩
  · intro f hf h
    exact (millPass_mem cfg now fs hnd hcz f hf).1 (by simp [decodeEntry, h])
  · intro f hf h
    exact (millPass_mem cfg now fs hnd hcz f hf).1 h
  · intro f hf g hg i j hi hj hts
    rw [hiff f hf i hi, hiff g hg j hj, hts]
  · exact List.length_take _ _
  · exact keepByCount_newest cfg.maxBackups _ (oldLogFiles_pairwise fs cfg.base)

theorem c4_witness :
    ((fsRet.map File.name).Nodup ∧ cfgN1.maxBackups ≠ 0 ∧ cfgN1.maxDays = 0 ∧
      cfgN1.compress = false) ∧
    ((∀ f ∈ fsRet, f.isDir = true → f ∈ millPass cfgN1 0 fsRet) ∧
      (∀ f ∈ fsRet, decodeEntry cfgN1.base f = none → f ∈ millPass cfgN1 0 fsRet) ∧
      (∀ f ∈ fsRet, ∀ i, decodeEntry cfgN1.base f = some i →
        (f ∈ millPass cfgN1 0 fsRet ↔
          i.timestamp ∈ keepByCount cfgN1.maxBackups (oldLogFiles fsRet cfgN1.base))) ∧
      (∀ f ∈ fsRet, ∀ g ∈ fsRet, ∀ i j, decodeEntry cfgN1.base f = some i →
        decodeEntry cfgN1.base g = some j → i.timestamp = j.timestamp →
        (f ∈ millPass cfgN1 0 fsRet ↔ g ∈ millPass cfgN1 0 fsRet)) ∧
      (keepByCount cfgN1.maxBackups (oldLogFiles fsRet cfgN1.base)).length
        = min cfgN1.maxBackups (allTimestamps (oldLogFiles fsRet cfgN1.base)).length ∧
      (∀ t ∈ keepByCount cfgN1.maxBackups (oldLogFiles fsRet cfgN1.base),
        ∀ u ∈ allTimestamps (oldLogFiles fsRet cfgN1.base),
          u ∉ keepByCount cfgN1.maxBackups (oldLogFiles fsRet cfgN1.base) → u < t)) :=
  ⟨⟨by decide, by decide, by decide, by decide⟩,
    c4_max_backups cfgN1 0 fsRet (by decide) (by decide) (by decide) (by decide)⟩

/-- C5: with `maxDays = D > 0` (compression off), a completed maintenance
pass removes every backup strictly older than `now` minus `D` days and
retains every backup at or after that cutoff as far as the age limit is
concerned; when the count limit is also enabled a backup survives exactly
when it violates neither limit — removal on the union of violations — and
with the count limit disabled survival is age-only. Non-backups are never
deleted. -/
theorem c5_max_age (cfg : Config) (now : Nat) (fs : FS)
    (hnd : (fs.map File.name).Nodup) (hD : cfg.maxDays ≠ 0)
    (hcz : cfg.compress = false) :
    (∀ f ∈ fs, decodeEntry cfg.base f = none → f ∈ millPass cfg now fs) ∧
    (∀ f ∈ fs, ∀ i, decodeEntry cfg.base f = some i →
      (f ∈ millPass cfg now fs ↔
        ((cfg.maxBackups = 0 ∨
            i.timestamp ∈ keepByCount cfg.maxBackups (oldLogFiles fs cfg.base)) ∧
          cutoffNs cfg.maxDays now ≤ i.timestamp))) ∧
    (cfg.maxBackups = 0 → ∀ f ∈ fs, ∀ i, decodeEntry cfg.base f = some i →
      (f ∈ millPass cfg now fs ↔ cutoffNs cfg.maxDays now ≤ i.timestamp)) := by
  have hiff : ∀ f ∈ fs, ∀ i, decodeEntry cfg.base f = some i →
      (f ∈ millPass cfg now fs ↔
        ((cfg.maxBackups = 0 ∨
            i.timestamp ∈ keepByCount cfg.maxBackups (oldLogFiles fs cfg.base)) ∧
          cutoffNs cfg.maxDays now ≤ i.timestamp)) := by
    intro f hf i hdec
    rw [(millPass_mem cfg now fs hnd hcz f hf).2 i hdec]
    simp only [millRemove, decide_eq_false_iff_not, hD, ne_eq, not_false_iff, true_and,
      not_or, not_and, not_not, Nat.not_lt]
    constructor
    · rintro ⟨h1, h2⟩
      refine ⟨?_, h2⟩
      by_cases hN : cfg.maxBackups = 0
      · exact Or.inl hN
      · exact Or.inr (h1 hN)
    · rintro ⟨h1, h2⟩
      refine ⟨fun hN => ?_, h2⟩
      rcases h1 with h1 | h1
      · exact absurd h1 hN
      · exact h1
  refine ⟨?_, hiff, ?_⟩
  · intro f hf h
    exact (millPass_mem cfg now fs hnd hcz f hf).1 h
  · intro hN0 f hf i hdec
    rw [hiff f hf i hdec]
    simp [hN0]

theorem c5_witness :
    ((fsRet.map File.name).Nodup ∧ cfgD1.maxDays ≠ 0 ∧ cfgD1.compress = false) ∧
    ((∀ f ∈ fsRet, decodeEntry cfgD1.base f = none →
        f ∈ millPass cfgD1 (6 * nsPerDay) fsRet) ∧
      (∀ f ∈ fsRet, ∀ i, decodeEntry cfgD1.base f = some i →
        (f ∈ millPass cfgD1 (6 * nsPerDay) fsRet ↔
          ((cfgD1.maxBackups = 0 ∨
              i.timestamp ∈ keepByCount cfgD1.maxBackups (oldLogFiles fsRet cfgD1.base)) ∧
            cutoffNs cfgD1.maxDays (6 * nsPerDay) ≤ i.timestamp))) ∧
      (cfgD1.maxBackups = 0 → ∀ f ∈ fsRet, ∀ i, decodeEntry cfgD1.base f = some i →
        (f ∈ millPass cfgD1 (6 * nsPerDay) fsRet ↔
          cutoffNs cfgD1.maxDays (6 * nsPerDay) ≤ i.timestamp))) :=
  ⟨⟨by decide, by decide, by decide⟩,
    c5_max_age cfgD1 (6 * nsPerDay) fsRet (by decide) (by decide) (by decide)⟩


/-- C6: with compression enabled and no retention limits, after an
explicit rotation of an active file holding `c` and a completed
maintenance pass, the retired file exists only in compressed form — its
name extended with the fixed compressed suffix and its content the
compressed image of `c` — the uncompressed intermediate is gone,
decompressing recovers exactly `c`, and the fresh active file is empty. -/
theorem c6_compress_on_rotate (cfg : Config) (now : Nat) (c : List Nat)
    (hcz : cfg.compress = true) (hN0 : cfg.maxBackups = 0) (hD0 : cfg.maxDays = 0)
    (hrw : cfg.rewrite = false) :
    FS.lookup (millPass cfg now (rotateOp now
        (⟨⟨cfg, c.length, true, false, [], false⟩, [⟨cfg.base, c, false⟩]⟩ : World)).2.fs)
        (backupName cfg.base now ++ compressSuffix)
      = some ⟨backupName cfg.base now ++ compressSuffix, gzipEncode c, false⟩ ∧
    FS.lookup (millPass cfg now (rotateOp now
        (⟨⟨cfg, c.length, true, false, [], false⟩, [⟨cfg.base, c, false⟩]⟩ : World)).2.fs)
        (backupName cfg.base now)
      = none ∧
    gzipDecode (gzipEncode c) = some c ∧
    FS.lookup (millPass cfg now (rotateOp now
        (⟨⟨cfg, c.length, true, false, [], false⟩, [⟨cfg.base, c, false⟩]⟩ : World)).2.fs)
        cfg.base
      = some ⟨cfg.base, [], false⟩ := by
  have hnb : backupName cfg.base now ≠ cfg.base := backupName_ne_base _ _
  have hlen3 : compressSuffix.length = 3 := by decide
  have hbnlen := length_backupName cfg.base now
  have hg1 : cfg.base ≠ backupName cfg.base now ++ compressSuffix := by
    intro h
    have := congrArg List.length h
    rw [List.length_append, hbnlen, hlen3] at this
    omega
  have hg2 : backupName cfg.base now ≠ backupName cfg.base now ++ compressSuffix := by
    intro h
    have := congrArg List.length h
    rw [List.length_append, hlen3] at this
    omega
  have hrot : (rotateOp now (⟨⟨cfg, c.length, true, false, [], false⟩,
      [⟨cfg.base, c, false⟩]⟩ : World)).2.fs
      = [⟨cfg.base, [], false⟩, ⟨backupName cfg.base now, c, false⟩] := by
    simp [rotateOp, flushW, rotateStep, hrw, Ne.symm hnb]
  have hdec1 : decodeEntry cfg.base (⟨cfg.base, [], false⟩ : File) = none := by
    simp [decodeEntry]
  have hdec2 : decodeEntry cfg.base (⟨backupName cfg.base now, c, false⟩ : File)
      = some ⟨(now / nsPerMs) * nsPerMs, backupName cfg.base now, false⟩ := by
    simp [decodeEntry, hnb, roundTrip]
  have hscan : oldLogFiles [(⟨cfg.base, [], false⟩ : File),
      ⟨backupName cfg.base now, c, false⟩] cfg.base
      = [⟨(now / nsPerMs) * nsPerMs, backupName cfg.base now, false⟩] := by
    simp [oldLogFiles, hdec1, hdec2, List.insertionSort, List.orderedInsert]
  have hlku : FS.lookup [(⟨cfg.base, [], false⟩ : File),
      ⟨backupName cfg.base now, c, false⟩]
      (backupName cfg.base now ++ compressSuffix) = none := by
    rw [lookup_cons, if_neg (fun h => hg1 h), lookup_cons, if_neg (fun h => hg2 h)]
    rfl
  have hlkbn : FS.lookup [(⟨cfg.base, [], false⟩ : File),
      ⟨backupName cfg.base now, c, false⟩] (backupName cfg.base now)
      = some ⟨backupName cfg.base now, c, false⟩ := by
    rw [lookup_cons, if_neg (fun h => hnb h.symm), lookup_cons, if_pos rfl]
  have hcomp : compressStep [(⟨cfg.base, [], false⟩ : File),
      ⟨backupName cfg.base now, c, false⟩] cfg.base
      = [⟨backupName cfg.base now ++ compressSuffix, gzipEncode c, false⟩,
          ⟨cfg.base, [], false⟩] := by
    unfold compressStep
    rw [hscan]
    rw [List.find?_cons_of_pos _ (by simp [hlku])]
    simp only [hlkbn]
    simp [Ne.symm hnb]
  have hmr : ∀ (files : List LogInfo) (i : LogInfo),
      millRemove cfg now files i = false := by
    intro files i
    simp [millRemove, hN0, hD0]
  have hmill : millPass cfg now [(⟨cfg.base, [], false⟩ : File),
      ⟨backupName cfg.base now, c, false⟩]
      = [⟨backupName cfg.base now ++ compressSuffix, gzipEncode c, false⟩,
          ⟨cfg.base, [], false⟩] := by
    unfold millPass
    rw [if_pos hcz, hcomp]
    have h1 : ∀ (files : List LogInfo), List.filter (millRemove cfg now files) files = [] :=
      fun files => List.filter_eq_nil_iff.mpr (fun a _ => by simp [hmr])
    simp [h1]
  rw [hrot, hmill]
  refine ⟨?_, ?_, rfl, ?_⟩
  · rw [lookup_cons, if_pos rfl]
  · rw [lookup_cons, if_neg (fun h => hg2 h.symm), lookup_cons,
      if_neg (fun h => hnb h.symm)]
    rfl
  · rw [lookup_cons, if_neg (fun h => hg1 h.symm), lookup_cons, if_pos rfl]

theorem c6_witness :
    (cfgGz.compress = true ∧ cfgGz.maxBackups = 0 ∧ cfgGz.maxDays = 0 ∧
      cfgGz.rewrite = false) ∧
    (FS.lookup (millPass cfgGz (2 * nsPerDay) (rotateOp (2 * nsPerDay)
          (⟨⟨cfgGz, ([1, 2, 3, 4] : List Nat).length, true, false, [], false⟩,
            [⟨cfgGz.base, [1, 2, 3, 4], false⟩]⟩ : World)).2.fs)
          (backupName cfgGz.base (2 * nsPerDay) ++ compressSuffix)
        = some ⟨backupName cfgGz.base (2 * nsPerDay) ++ compressSuffix,
            gzipEncode [1, 2, 3, 4], false⟩ ∧
      FS.lookup (millPass cfgGz (2 * nsPerDay) (rotateOp (2 * nsPerDay)
          (⟨⟨cfgGz, ([1, 2, 3, 4] : List Nat).length, true, false, [], false⟩,
            [⟨cfgGz.base, [1, 2, 3, 4], false⟩]⟩ : World)).2.fs)
          (backupName cfgGz.base (2 * nsPerDay))
        = none ∧
      gzipDecode (gzipEncode [1, 2, 3, 4]) = some [1, 2, 3, 4] ∧
      FS.lookup (millPass cfgGz (2 * nsPerDay) (rotateOp (2 * nsPerDay)
          (⟨⟨cfgGz, ([1, 2, 3, 4] : List Nat).length, true, false, [], false⟩,
            [⟨cfgGz.base, [1, 2, 3, 4], false⟩]⟩ : World)).2.fs)
          cfgGz.base
        = some ⟨cfgGz.base, [], false⟩) :=
  ⟨⟨by decide, by decide, by decide, by decide⟩,
    c6_compress_on_rotate cfgGz (2 * nsPerDay) [1, 2, 3, 4] (by decide) (by decide)
      (by decide) (by decide)⟩

end Lumberjack
